import Mathlib

/-!
A shallow embedding of `src/user_management_system.py` (the in-memory
user record store) and proofs checking the specification's claims
against it.

Modelling choices, all driven by the Python source:

* Python attribute values that flow through the store are either `int`
  or `str`; `PyVal` covers both (dataclass fields start typed, but
  `setattr` can store a value of either type on any attribute).
* A `User` is the dataclass with its five declared fields plus the
  dynamic attributes `setattr` may add (`extra`); the generated
  dataclass `__eq__` compares only the five declared fields.
* `UserDatabase.entries` holds references into an explicit heap
  (`heap : Nat -> User`), because `self.entries` and `self.srno_index`
  alias the *same* `User` objects and `update_user` mutates them in
  place through either view.
* `srno_index` is a Python dict: an association list with unique keys,
  insertion order preserved, assignment overwriting in place.
* `int(s)` is modelled by `pythonInt`: surrounding whitespace stripped,
  optional sign, ASCII digits with single underscores allowed between
  digits.  (CPython additionally accepts non-ASCII decimal digits and a
  few more Unicode space characters; no claim depends on those.)
* `delete_user` can raise in Python (`list.remove` -> ValueError,
  `del dict[k]` -> KeyError); `DelRes` records normal returns and both
  exception points, with the state mutated exactly as far as the Python
  statements that already executed.
-/

/-- A Python value as it occurs in this program: an `int` or a `str`. -/
inductive PyVal where
  | vInt : Int → PyVal
  | vStr : String → PyVal
deriving DecidableEq

/-- Python `str(v)` for the two value shapes used here. -/
def PyVal.toStr : PyVal → String
  | .vInt n => toString n
  | .vStr s => s

/-- True exactly on `int` values. -/
def PyVal.isInt : PyVal → Bool
  | .vInt _ => true
  | .vStr _ => false

/-- Digit run of a Python integer literal after the first digit was read:
ASCII digits, single underscores allowed between digits. -/
def digitsCore : List Char → Nat → Option Nat
  | [], acc => some acc
  | ['_'], _ => none
  | '_' :: c :: rest, acc =>
      if c.isDigit then digitsCore rest (acc * 10 + (c.toNat - 48)) else none
  | c :: rest, acc =>
      if c.isDigit then digitsCore rest (acc * 10 + (c.toNat - 48)) else none

/-- Nonempty ASCII digit run (underscore grouping allowed), as `int()` accepts. -/
def parseDigits : List Char → Option Nat
  | [] => none
  | c :: rest => if c.isDigit then digitsCore rest (c.toNat - 48) else none

/-- Strip leading and trailing whitespace from a character list (the
whitespace stripping `int()` performs). -/
def stripWs (cs : List Char) : List Char :=
  ((cs.dropWhile Char.isWhitespace).reverse.dropWhile Char.isWhitespace).reverse

/-- Python `int(s)` on a string: strip surrounding whitespace, optional
sign, digits.  `none` models the `ValueError` the callers catch. -/
def pythonInt (s : String) : Option Int :=
  match stripWs s.data with
  | '+' :: rest => (parseDigits rest).map (fun n => (n : Int))
  | '-' :: rest => (parseDigits rest).map (fun n => -(n : Int))
  | cs => (parseDigits cs).map (fun n => (n : Int))

/-- ASCII lowercasing of one character (Python `str.lower`; the data in
this development is ASCII). -/
def charLower (c : Char) : Char :=
  if 'A' ≤ c ∧ c ≤ 'Z' then Char.ofNat (c.toNat + 32) else c

/-- Python `s.lower()`. -/
def pyLower (s : String) : String :=
  ⟨s.data.map charLower⟩

/-- The `User` dataclass: the five declared fields plus any attributes a
later `setattr(user, field, val)` with an unknown field name adds. -/
structure User where
  srno : PyVal
  name : PyVal
  age : PyVal
  gender : PyVal
  occupation : PyVal
  extra : List (String × PyVal)
deriving DecidableEq

/-- Lookup in the dynamic-attribute association list. -/
def assocStr : List (String × PyVal) → String → Option PyVal
  | [], _ => none
  | (k, v) :: rest, key => if k = key then some v else assocStr rest key

/-- Overwrite-or-append in the dynamic-attribute association list. -/
def assocSet : List (String × PyVal) → String → PyVal → List (String × PyVal)
  | [], key, v => [(key, v)]
  | (k, w) :: rest, key, v =>
      if k = key then (key, v) :: rest else (k, w) :: assocSet rest key v

/-- Python `getattr(entry, key, '')` as used in `find_user`: a declared
field, else a dynamic attribute, else the default `''`. -/
def getattrOr (u : User) (key : String) : PyVal :=
  if key = "srno" then u.srno
  else if key = "name" then u.name
  else if key = "age" then u.age
  else if key = "gender" then u.gender
  else if key = "occupation" then u.occupation
  else (assocStr u.extra key).getD (.vStr "")

/-- Python `setattr(user, field, val)`: assigns a declared field or adds
or overwrites a dynamic attribute. -/
def setattrU (u : User) (field : String) (v : PyVal) : User :=
  if field = "srno" then { u with srno := v }
  else if field = "name" then { u with name := v }
  else if field = "age" then { u with age := v }
  else if field = "gender" then { u with gender := v }
  else if field = "occupation" then { u with occupation := v }
  else { u with extra := assocSet u.extra field v }

/-- The dataclass-generated `__eq__`: compares the five declared fields
(and not dynamic attributes).  Used by `list.remove`. -/
def pyEqUser (a b : User) : Bool :=
  decide (a.srno = b.srno ∧ a.name = b.name ∧ a.age = b.age ∧
    a.gender = b.gender ∧ a.occupation = b.occupation)

/-- Python `d.get(k)` on the srno dict. -/
def dictGet : List (PyVal × Nat) → PyVal → Option Nat
  | [], _ => none
  | (k, v) :: rest, key => if k = key then some v else dictGet rest key

/-- Python `d[k] = v`: overwrite in place, else append. -/
def dictSet : List (PyVal × Nat) → PyVal → Nat → List (PyVal × Nat)
  | [], key, v => [(key, v)]
  | (k, w) :: rest, key, v =>
      if k = key then (key, v) :: rest else (k, w) :: dictSet rest key v

/-- Python `del d[k]` once the key is known present: drop that pair. -/
def dictDel : List (PyVal × Nat) → PyVal → List (PyVal × Nat)
  | [], _ => []
  | (k, w) :: rest, key => if k = key then rest else (k, w) :: dictDel rest key

/-- The store (`UserDatabase.__init__`): an explicit heap of `User`
objects so that `entries` and `srno_index` can alias the same object,
the insertion-ordered list of references, and the srno dict. -/
structure UserDatabase where
  heap : Nat → User
  nextRef : Nat
  entries : List Nat
  srno_index : List (PyVal × Nat)

/-- Placeholder heap content for never-allocated addresses. -/
def defaultUser : User := ⟨.vInt 0, .vStr "", .vInt 0, .vStr "", .vStr "", []⟩

/-- A freshly constructed `UserDatabase()`. -/
def emptyDB : UserDatabase := ⟨fun _ => defaultUser, 0, [], []⟩

/-- Heap update at one address. -/
def heapSet (h : Nat → User) (r : Nat) (u : User) : Nat → User :=
  fun r' => if r' = r then u else h r'

/-- `UserDatabase._get_next_srno`: `len(self.entries) + 1`. -/
def getNextSrno (db : UserDatabase) : Int :=
  (db.entries.length : Int) + 1

/-- Outcome of `add_user`.  In the source both the early rejection
`return` and the fall-through return `None`, so `ret` (the Python
return value, typed as the spec's `Record | Rejected` would demand) is
`none` on every path; `msg` is the error text printed on rejection. -/
structure AddResult where
  db : UserDatabase
  ret : Option User
  msg : Option String

/-- `UserDatabase.add_user`: coerce `age` with `int`, on `ValueError`
print and return; otherwise build the `User` with srno
`_get_next_srno()`, append it to `entries` and index it. -/
def add_user (db : UserDatabase) (name age gender occupation : String) : AddResult :=
  match pythonInt age with
  | none => ⟨db, none, some "Error: Age must be a valid number. Entry aborted."⟩
  | some ageInt =>
      let u : User :=
        ⟨.vInt (getNextSrno db), .vStr name, .vInt ageInt, .vStr gender,
          .vStr occupation, []⟩
      let r := db.nextRef
      ⟨{ heap := heapSet db.heap r u,
         nextRef := r + 1,
         entries := db.entries ++ [r],
         srno_index := dictSet db.srno_index (.vInt (getNextSrno db)) r },
        none, none⟩

/-- The linear-scan predicate of `find_user`:
`str(getattr(entry, key, '')).lower() == str(value).lower()`. -/
def matchesKV (h : Nat → User) (key value : String) (r : Nat) : Bool :=
  pyLower (getattrOr (h r) key).toStr == pyLower value

/-- `UserDatabase.find_user`: O(1) dict lookup for `key == 'srno'`
(`ValueError` on `int(value)` gives `None`), else first match of the
linear scan.  Returns the reference of the found `User`. -/
def find_user (db : UserDatabase) (key value : String) : Option Nat :=
  if key = "srno" then
    match pythonInt value with
    | some n => dictGet db.srno_index (.vInt n)
    | none => none
  else
    db.entries.find? (matchesKV db.heap key value)

/-- The `for field, val in new_data.items()` loop of `update_user`:
each iteration coerces an `'age'` value with `int` (returning `False`
on `ValueError`, keeping the `setattr`s already performed) and then
assigns the attribute on the resolved object in place. -/
def applyNewData (db : UserDatabase) (r : Nat) :
    List (String × String) → UserDatabase × Bool
  | [] => (db, true)
  | (field, val) :: rest =>
      if field = "age" then
        match pythonInt val with
        | none => (db, false)
        | some n =>
            applyNewData
              { db with heap := heapSet db.heap r (setattrU (db.heap r) field (.vInt n)) }
              r rest
      else
        applyNewData
          { db with heap := heapSet db.heap r (setattrU (db.heap r) field (.vStr val)) }
          r rest

/-- `UserDatabase.update_user`: resolve via `find_user`, then run the
assignment loop on the resolved object; `False` when nothing resolved. -/
def update_user (db : UserDatabase) (key value : String)
    (new_data : List (String × String)) : UserDatabase × Bool :=
  match find_user db key value with
  | some r => applyNewData db r new_data
  | none => (db, false)

/-- Outcome of `delete_user`: a normal boolean return, or the
`ValueError` `list.remove` raises when no equal element exists, or the
`KeyError` `del` raises when the srno key is absent. -/
inductive DelRes where
  | ok : Bool → DelRes
  | valueError : DelRes
  | keyError : DelRes
deriving DecidableEq

/-- Python `self.entries.remove(user)`: drop the first reference whose
object compares `__eq__`-equal to `user`; `none` models `ValueError`. -/
def removeFirst (h : Nat → User) : List Nat → User → Option (List Nat)
  | [], _ => none
  | r :: rest, u =>
      if pyEqUser (h r) u then some rest
      else (removeFirst h rest u).map (r :: ·)

/-- `UserDatabase.delete_user`: resolve via `find_user`, then
`entries.remove(user)` followed by `del srno_index[user.srno]`, each
with its Python exception point (the remove has already mutated
`entries` when the `del` raises `KeyError`). -/
def delete_user (db : UserDatabase) (key value : String) : UserDatabase × DelRes :=
  match find_user db key value with
  | none => (db, .ok false)
  | some r =>
      let u := db.heap r
      match removeFirst db.heap db.entries u with
      | none => (db, .valueError)
      | some entries' =>
          match dictGet db.srno_index u.srno with
          | none => ({ db with entries := entries' }, .keyError)
          | some _ =>
              ({ db with
                  entries := entries',
                  srno_index := dictDel db.srno_index u.srno },
                .ok true)

/-- One store operation, as invoked by the interaction shell. -/
inductive Op where
  | addU : String → String → String → String → Op
  | updU : String → String → List (String × String) → Op
  | delU : String → String → Op
deriving DecidableEq

/-- Run one operation; exceptions escaping `delete_user` are caught by
the shell's main loop, which keeps the store as mutated so far. -/
def runOp (db : UserDatabase) : Op → UserDatabase
  | .addU n a g o => (add_user db n a g o).db
  | .updU k v nd => (update_user db k v nd).1
  | .delU k v => (delete_user db k v).1

/-- Run a sequence of operations from a given store. -/
def runOpsFrom (db : UserDatabase) (ops : List Op) : UserDatabase :=
  ops.foldl runOp db

/-- Run a sequence of operations from the empty store. -/
def runOps (ops : List Op) : UserDatabase :=
  runOpsFrom emptyDB ops

/-- The identifiers of the live records, in enumeration order. -/
def liveSrnos (db : UserDatabase) : List PyVal :=
  db.entries.map (fun r => (db.heap r).srno)

/-- The identifier list `[1, ..., n]` that a store holds after `n`
creations and no deletion. -/
def canonSrnos (n : Nat) : List PyVal :=
  (List.range n).map (fun (i : Nat) => PyVal.vInt ((i : Int) + 1))

/-- Remove the first occurrence of a reference from the entry list. -/
def eraseRef : List Nat → Nat → List Nat
  | [], _ => []
  | x :: rest, r => if x = r then rest else x :: eraseRef rest r

/-- The store's coherence invariant: entry references are distinct,
heap-allocated, carry pairwise distinct integer identifiers, and the
srno dict is exactly the identifier-to-reference view of the entry
list (unique keys, both directions). -/
def Coh (db : UserDatabase) : Prop :=
  db.entries.Nodup ∧
  (∀ r ∈ db.entries, r < db.nextRef) ∧
  List.Pairwise (fun a b => (db.heap a).srno ≠ (db.heap b).srno) db.entries ∧
  (∀ r ∈ db.entries, (db.heap r).srno.isInt = true) ∧
  (∀ r ∈ db.entries, dictGet db.srno_index ((db.heap r).srno) = some r) ∧
  (∀ p ∈ db.srno_index, p.2 ∈ db.entries ∧ (db.heap p.2).srno = p.1) ∧
  (db.srno_index.map Prod.fst).Nodup

/-- Coherence plus: the live identifiers are exactly `[1, ..., n]` in
insertion order (the situation while no record was ever deleted). -/
def Strong (db : UserDatabase) : Prop :=
  Coh db ∧ liveSrnos db = canonSrnos db.entries.length

/-- An update operation whose field dict does not touch the identifier
field (the interaction shell only ever sends the four non-identifier
fields). -/
def opUpdOk : Op → Bool
  | .updU _ _ nd => nd.all (fun p => !(decide (p.1 = "srno")))
  | _ => true

/-- Every update in the sequence leaves the identifier field alone. -/
def opsUpdOk (ops : List Op) : Bool := ops.all opUpdOk

/-- Is the operation a create? -/
def opIsAdd : Op → Bool
  | .addU _ _ _ _ => true
  | _ => false

/-- Is the operation a delete? -/
def opIsDel : Op → Bool
  | .delU _ _ => true
  | _ => false

/-- No create operation occurs after any delete operation. -/
def noAddAfterDel : List Op → Bool
  | [] => true
  | .delU _ _ :: rest => rest.all (fun o => !(opIsAdd o))
  | _ :: rest => noAddAfterDel rest

/-- Store holding the single record `User(1, 'Alice', 30, 'F', 'Engineer')`. -/
def sAlice : UserDatabase := (add_user emptyDB "Alice" "30" "F" "Engineer").db

/-- Store holding Alice (srno 1) and Bob (srno 2). -/
def sAliceBob : UserDatabase := (add_user sAlice "Bob" "25" "M" "Doctor").db

/-- Create Alice and Bob, delete record 1, create Carol: the delete
drops the live count to 1, so Carol is assigned srno 2 — already held
by the live record Bob. -/
def exC2 : List Op :=
  [.addU "Alice" "30" "F" "Engineer", .addU "Bob" "25" "M" "Doctor",
   .delU "srno" "1", .addU "Carol" "40" "F" "Teacher"]

/-- Continue `exC2` by deleting Bob by name: the `del` on his srno key
2 removes the index entry that pointed at Carol, leaving live Carol
unindexed. -/
def exBad : List Op := exC2 ++ [.delU "name" "Bob"]

/-! ### Helper lemmas: heap, attributes, dict, list surgery -/

theorem heapSet_self (h : Nat → User) (r : Nat) (u : User) : heapSet h r u r = u := by
  simp [heapSet]

theorem heapSet_ne (h : Nat → User) (r : Nat) (u : User) {r' : Nat} (hne : r' ≠ r) :
    heapSet h r u r' = h r' := by
  simp [heapSet, hne]

theorem pyEqUser_refl (a : User) : pyEqUser a a = true := by
  simp [pyEqUser]

theorem pyEqUser_srno {a b : User} (h : pyEqUser a b = true) : a.srno = b.srno := by
  simp only [pyEqUser, decide_eq_true_eq] at h
  exact h.1

theorem setattrU_srno (u : User) (field : String) (v : PyVal) (h : field ≠ "srno") :
    (setattrU u field v).srno = u.srno := by
  unfold setattrU
  rw [if_neg h]
  split_ifs <;> rfl

theorem dictGet_cons (pk : PyVal) (pv : Nat) (rest : List (PyVal × Nat)) (key : PyVal) :
    dictGet ((pk, pv) :: rest) key = if pk = key then some pv else dictGet rest key := rfl

theorem dictSet_cons (pk : PyVal) (pv : Nat) (rest : List (PyVal × Nat)) (key : PyVal)
    (v : Nat) :
    dictSet ((pk, pv) :: rest) key v =
      if pk = key then (key, v) :: rest else (pk, pv) :: dictSet rest key v := rfl

theorem dictDel_cons (pk : PyVal) (pv : Nat) (rest : List (PyVal × Nat)) (key : PyVal) :
    dictDel ((pk, pv) :: rest) key =
      if pk = key then rest else (pk, pv) :: dictDel rest key := rfl

theorem dictGet_mem {d : List (PyVal × Nat)} {k : PyVal} {v : Nat}
    (h : dictGet d k = some v) : (k, v) ∈ d := by
  induction d with
  | nil => cases h
  | cons p rest ih =>
      obtain ⟨pk, pv⟩ := p
      rw [dictGet_cons] at h
      by_cases hk : pk = k
      · subst hk
        rw [if_pos rfl] at h
        cases h
        exact List.mem_cons_self _ _
      · rw [if_neg hk] at h
        exact List.mem_cons_of_mem _ (ih h)

theorem dictGet_dictSet (d : List (PyVal × Nat)) (k : PyVal) (v : Nat) (k' : PyVal) :
    dictGet (dictSet d k v) k' = if k = k' then some v else dictGet d k' := by
  induction d with
  | nil =>
      show dictGet [(k, v)] k' = _
      rw [dictGet_cons]
  | cons p rest ih =>
      obtain ⟨pk, pv⟩ := p
      rw [dictSet_cons]
      by_cases hk : pk = k
      · rw [if_pos hk, dictGet_cons, dictGet_cons]
        by_cases hk' : k = k'
        · rw [if_pos hk', if_pos hk']
        · rw [if_neg hk', if_neg hk', if_neg (hk ▸ hk' : ¬ pk = k')]
      · rw [if_neg hk, dictGet_cons, dictGet_cons]
        by_cases hpk' : pk = k'
        · have hkk' : ¬ k = k' := fun h => hk (by rw [hpk', h])
          rw [if_pos hpk', if_neg hkk', if_pos hpk']
        · rw [if_neg hpk', if_neg hpk', ih]

theorem dictGet_not_mem_keys {d : List (PyVal × Nat)} {k : PyVal}
    (h : k ∉ d.map Prod.fst) : dictGet d k = none := by
  induction d with
  | nil => rfl
  | cons p rest ih =>
      obtain ⟨pk, pv⟩ := p
      simp only [List.map_cons, List.mem_cons, not_or] at h
      rw [dictGet_cons, if_neg (fun hh : pk = k => h.1 hh.symm)]
      exact ih h.2

theorem dictGet_dictDel (d : List (PyVal × Nat)) (hd : (d.map Prod.fst).Nodup)
    (k k' : PyVal) :
    dictGet (dictDel d k) k' = if k = k' then none else dictGet d k' := by
  induction d with
  | nil =>
      show (none : Option Nat) = _
      by_cases hk' : k = k'
      · rw [if_pos hk']
      · rw [if_neg hk']
        rfl
  | cons p rest ih =>
      obtain ⟨pk, pv⟩ := p
      simp only [List.map_cons, List.nodup_cons] at hd
      rw [dictDel_cons]
      by_cases hk : pk = k
      · subst hk
        rw [if_pos rfl]
        by_cases hk' : pk = k'
        · rw [if_pos hk']
          exact dictGet_not_mem_keys (hk' ▸ hd.1)
        · rw [if_neg hk', dictGet_cons, if_neg hk']
      · rw [if_neg hk, dictGet_cons, dictGet_cons]
        by_cases hpk' : pk = k'
        · have hkk' : ¬ k = k' := fun h => hk (hpk'.trans h.symm)
          rw [if_pos hpk', if_neg hkk', if_pos hpk']
        · rw [if_neg hpk', if_neg hpk', ih hd.2]

theorem mem_dictSet {d : List (PyVal × Nat)} {k : PyVal} {v : Nat} {p : PyVal × Nat}
    (h : p ∈ dictSet d k v) : p = (k, v) ∨ p ∈ d := by
  induction d with
  | nil =>
      rcases List.mem_singleton.mp h with h'
      exact Or.inl h'
  | cons q rest ih =>
      obtain ⟨qk, qv⟩ := q
      rw [dictSet_cons] at h
      by_cases hk : qk = k
      · rw [if_pos hk] at h
        rcases List.mem_cons.mp h with h' | h'
        · exact Or.inl h'
        · exact Or.inr (List.mem_cons_of_mem _ h')
      · rw [if_neg hk] at h
        rcases List.mem_cons.mp h with h' | h'
        · exact Or.inr (h' ▸ List.mem_cons_self _ _)
        · rcases ih h' with h'' | h''
          · exact Or.inl h''
          · exact Or.inr (List.mem_cons_of_mem _ h'')

theorem mem_keys_dictSet {d : List (PyVal × Nat)} {k : PyVal} {v : Nat} {a : PyVal} :
    a ∈ (dictSet d k v).map Prod.fst ↔ a = k ∨ a ∈ d.map Prod.fst := by
  induction d with
  | nil => simp [dictSet]
  | cons q rest ih =>
      obtain ⟨qk, qv⟩ := q
      rw [dictSet_cons]
      by_cases hk : qk = k
      · subst hk
        rw [if_pos rfl]
        simp
      · rw [if_neg hk]
        simp only [List.map_cons, List.mem_cons, ih]
        tauto

theorem keysNodup_dictSet {d : List (PyVal × Nat)} (k : PyVal) (v : Nat)
    (hd : (d.map Prod.fst).Nodup) : ((dictSet d k v).map Prod.fst).Nodup := by
  induction d with
  | nil => simp [dictSet]
  | cons q rest ih =>
      obtain ⟨qk, qv⟩ := q
      simp only [List.map_cons, List.nodup_cons] at hd
      rw [dictSet_cons]
      by_cases hk : qk = k
      · subst hk
        rw [if_pos rfl]
        simp only [List.map_cons, List.nodup_cons]
        exact hd
      · rw [if_neg hk]
        simp only [List.map_cons, List.nodup_cons]
        refine ⟨fun hmem => ?_, ih hd.2⟩
        rcases mem_keys_dictSet.mp hmem with h | h
        · exact hk h
        · exact hd.1 h

theorem dictDel_sublist (d : List (PyVal × Nat)) (k : PyVal) :
    List.Sublist (dictDel d k) d := by
  induction d with
  | nil => exact List.Sublist.refl _
  | cons q rest ih =>
      obtain ⟨qk, qv⟩ := q
      rw [dictDel_cons]
      by_cases hk : qk = k
      · rw [if_pos hk]
        exact List.sublist_cons_self _ _
      · rw [if_neg hk]
        exact List.Sublist.cons₂ _ ih

theorem keysNodup_dictDel {d : List (PyVal × Nat)} (k : PyVal)
    (hd : (d.map Prod.fst).Nodup) : ((dictDel d k).map Prod.fst).Nodup :=
  List.Nodup.sublist ((dictDel_sublist d k).map Prod.fst) hd

theorem eraseRef_cons (x : Nat) (rest : List Nat) (r : Nat) :
    eraseRef (x :: rest) r = if x = r then rest else x :: eraseRef rest r := rfl

theorem eraseRef_sublist (l : List Nat) (r : Nat) : List.Sublist (eraseRef l r) l := by
  induction l with
  | nil => exact List.Sublist.refl _
  | cons x rest ih =>
      rw [eraseRef_cons]
      by_cases hx : x = r
      · rw [if_pos hx]
        exact List.sublist_cons_self _ _
      · rw [if_neg hx]
        exact List.Sublist.cons₂ _ ih

theorem mem_eraseRef_of_ne {l : List Nat} {a r : Nat} (ha : a ∈ l) (hne : a ≠ r) :
    a ∈ eraseRef l r := by
  induction l with
  | nil => cases ha
  | cons x rest ih =>
      rw [eraseRef_cons]
      by_cases hx : x = r
      · rw [if_pos hx]
        rcases List.mem_cons.mp ha with h | h
        · exact absurd (h.trans hx) hne
        · exact h
      · rw [if_neg hx]
        rcases List.mem_cons.mp ha with h | h
        · exact h ▸ List.mem_cons_self _ _
        · exact List.mem_cons_of_mem _ (ih h)

theorem not_mem_eraseRef {l : List Nat} (hl : l.Nodup) (r : Nat) :
    r ∉ eraseRef l r := by
  induction l with
  | nil => simp [eraseRef]
  | cons x rest ih =>
      simp only [List.nodup_cons] at hl
      rw [eraseRef_cons]
      by_cases hx : x = r
      · rw [if_pos hx]
        exact hx ▸ hl.1
      · rw [if_neg hx]
        intro hmem
        rcases List.mem_cons.mp hmem with h | h
        · exact hx h.symm
        · exact ih hl.2 h

theorem removeFirst_cons (h : Nat → User) (x : Nat) (rest : List Nat) (u : User) :
    removeFirst h (x :: rest) u =
      if pyEqUser (h x) u then some rest
      else (removeFirst h rest u).map (x :: ·) := rfl

theorem removeFirst_erase (h : Nat → User) {l : List Nat} {r : Nat}
    (hr : r ∈ l) (huniq : ∀ r' ∈ l, pyEqUser (h r') (h r) = true → r' = r) :
    removeFirst h l (h r) = some (eraseRef l r) := by
  induction l with
  | nil => cases hr
  | cons x rest ih =>
      rw [removeFirst_cons, eraseRef_cons]
      by_cases he : pyEqUser (h x) (h r) = true
      · have hx : x = r := huniq x (List.mem_cons_self _ _) he
        rw [if_pos he, if_pos hx]
      · have hx : x ≠ r := fun hxr => he (by rw [hxr]; exact pyEqUser_refl _)
        have hr' : r ∈ rest := by
          rcases List.mem_cons.mp hr with h' | h'
          · exact absurd h'.symm hx
          · exact h'
        have huniq' : ∀ r' ∈ rest, pyEqUser (h r') (h r) = true → r' = r :=
          fun r' hr'' => huniq r' (List.mem_cons_of_mem _ hr'')
        rw [if_neg he, if_neg hx, ih hr' huniq']
        rfl

theorem find?_first {α : Type} (p : α → Bool) :
    ∀ (l : List α) (a : α), l.find? p = some a →
      ∃ i, ∃ hi : i < l.length, l.get ⟨i, hi⟩ = a ∧ p a = true ∧
        ∀ j, ∀ hj : j < i, p (l.get ⟨j, lt_trans hj hi⟩) = false := by
  intro l
  induction l with
  | nil => intro a h; cases h
  | cons x rest ih =>
      intro a h
      by_cases hx : p x = true
      · rw [List.find?_cons_of_pos _ hx] at h
        cases h
        refine ⟨0, Nat.succ_pos _, rfl, hx, ?_⟩
        intro j hj
        exact absurd hj (Nat.not_lt_zero _)
      · rw [List.find?_cons_of_neg _ (by simpa using hx)] at h
        obtain ⟨i, hi, hget, hpa, hprior⟩ := ih a h
        refine ⟨i + 1, Nat.succ_lt_succ hi, hget, hpa, ?_⟩
        intro j hj
        match j with
        | 0 => exact Bool.eq_false_iff.mpr hx
        | Nat.succ j' => exact hprior j' (Nat.lt_of_succ_lt_succ hj)

theorem find_user_srno (db : UserDatabase) (value : String) :
    find_user db "srno" value =
      match pythonInt value with
      | some n => dictGet db.srno_index (.vInt n)
      | none => none := by
  simp [find_user]

theorem find_user_other (db : UserDatabase) (key value : String) (hk : key ≠ "srno") :
    find_user db key value = db.entries.find? (matchesKV db.heap key value) := by
  simp [find_user, hk]

theorem find_user_mem {db : UserDatabase} {key value : String} {r : Nat}
    (hix : ∀ p ∈ db.srno_index, p.2 ∈ db.entries ∧ (db.heap p.2).srno = p.1)
    (hf : find_user db key value = some r) : r ∈ db.entries := by
  by_cases hk : key = "srno"
  · subst hk
    rw [find_user_srno] at hf
    cases hv : pythonInt value with
    | none => simp [hv] at hf
    | some n =>
        simp only [hv] at hf
        exact (hix _ (dictGet_mem hf)).1
  · rw [find_user_other db key value hk] at hf
    exact List.mem_of_find?_eq_some hf

theorem applyNewData_cons_age_none (db : UserDatabase) (r : Nat) (val : String)
    (rest : List (String × String)) (hv : pythonInt val = none) :
    applyNewData db r (("age", val) :: rest) = (db, false) := by
  simp [applyNewData, hv]

theorem applyNewData_cons_age_some (db : UserDatabase) (r : Nat) (val : String)
    (rest : List (String × String)) (n : Int) (hv : pythonInt val = some n) :
    applyNewData db r (("age", val) :: rest) =
      applyNewData
        { db with heap := heapSet db.heap r (setattrU (db.heap r) "age" (.vInt n)) }
        r rest := by
  simp [applyNewData, hv]

theorem applyNewData_cons_other (db : UserDatabase) (r : Nat) (field val : String)
    (rest : List (String × String)) (hfield : field ≠ "age") :
    applyNewData db r ((field, val) :: rest) =
      applyNewData
        { db with heap := heapSet db.heap r (setattrU (db.heap r) field (.vStr val)) }
        r rest := by
  simp [applyNewData, hfield]

theorem heapSet_setattr_srno (h : Nat → User) (r : Nat) (field : String) (v : PyVal)
    (hfield : field ≠ "srno") (r' : Nat) :
    ((heapSet h r (setattrU (h r) field v)) r').srno = (h r').srno := by
  by_cases hr' : r' = r
  · subst hr'
    rw [heapSet_self, setattrU_srno _ _ _ hfield]
  · rw [heapSet_ne _ _ _ hr']

theorem applyNewData_spec (r : Nat) :
    ∀ nd : List (String × String), (∀ p ∈ nd, p.1 ≠ "srno") →
    ∀ db : UserDatabase,
      (applyNewData db r nd).1.entries = db.entries ∧
      (applyNewData db r nd).1.srno_index = db.srno_index ∧
      (applyNewData db r nd).1.nextRef = db.nextRef ∧
      (∀ r', ((applyNewData db r nd).1.heap r').srno = (db.heap r').srno) ∧
      (∀ r', r' ≠ r → (applyNewData db r nd).1.heap r' = db.heap r') := by
  intro nd
  induction nd with
  | nil =>
      intro _ db
      exact ⟨rfl, rfl, rfl, fun _ => rfl, fun _ _ => rfl⟩
  | cons p rest ih =>
      intro hnd db
      obtain ⟨field, val⟩ := p
      have hfield : field ≠ "srno" := hnd (field, val) (List.mem_cons_self _ _)
      have hrest : ∀ q ∈ rest, q.1 ≠ "srno" :=
        fun q hq => hnd q (List.mem_cons_of_mem _ hq)
      by_cases hage : field = "age"
      · subst hage
        cases hv : pythonInt val with
        | none =>
            rw [applyNewData_cons_age_none db r val rest hv]
            exact ⟨rfl, rfl, rfl, fun _ => rfl, fun _ _ => rfl⟩
        | some n =>
            rw [applyNewData_cons_age_some db r val rest n hv]
            obtain ⟨h1, h2, h3, h4, h5⟩ := ih hrest
              { db with heap := heapSet db.heap r (setattrU (db.heap r) "age" (.vInt n)) }
            refine ⟨h1, h2, h3, fun r' => ?_, fun r' hr' => ?_⟩
            · exact (h4 r').trans
                (heapSet_setattr_srno db.heap r "age" (.vInt n) (by decide) r')
            · exact (h5 r' hr').trans (heapSet_ne _ _ _ hr')
      · rw [applyNewData_cons_other db r field val rest hage]
        obtain ⟨h1, h2, h3, h4, h5⟩ := ih hrest
          { db with heap := heapSet db.heap r (setattrU (db.heap r) field (.vStr val)) }
        refine ⟨h1, h2, h3, fun r' => ?_, fun r' hr' => ?_⟩
        · exact (h4 r').trans
            (heapSet_setattr_srno db.heap r field (.vStr val) hfield r')
        · exact (h5 r' hr').trans (heapSet_ne _ _ _ hr')

theorem update_user_frame (db : UserDatabase) (key value : String)
    (nd : List (String × String)) (hnd : ∀ p ∈ nd, p.1 ≠ "srno") :
    (update_user db key value nd).1.entries = db.entries ∧
    (update_user db key value nd).1.srno_index = db.srno_index ∧
    (update_user db key value nd).1.nextRef = db.nextRef ∧
    (∀ r', ((update_user db key value nd).1.heap r').srno = (db.heap r').srno) := by
  cases hf : find_user db key value with
  | none =>
      simp [update_user, hf]
  | some r =>
      simp only [update_user, hf]
      obtain ⟨h1, h2, h3, h4, _⟩ := applyNewData_spec r nd hnd db
      exact ⟨h1, h2, h3, h4⟩

theorem mem_keys_dictGet_isSome {d : List (PyVal × Nat)} {k : PyVal}
    (h : k ∈ d.map Prod.fst) : (dictGet d k).isSome = true := by
  induction d with
  | nil => simp at h
  | cons p rest ih =>
      obtain ⟨pk, pv⟩ := p
      rw [dictGet_cons]
      by_cases hk : pk = k
      · rw [if_pos hk]
        rfl
      · rw [if_neg hk]
        simp only [List.map_cons, List.mem_cons] at h
        rcases h with h | h
        · exact absurd h.symm hk
        · exact ih h

theorem delete_user_found (db : UserDatabase) (key value : String) (hC : Coh db)
    {r : Nat} (hf : find_user db key value = some r) :
    delete_user db key value =
      ({ db with
          entries := eraseRef db.entries r,
          srno_index := dictDel db.srno_index ((db.heap r).srno) },
        .ok true) := by
  obtain ⟨hnd, hbound, hpair, hint, hb2, hb3, hkeys⟩ := hC
  have hr : r ∈ db.entries := find_user_mem hb3 hf
  have huniq : ∀ r' ∈ db.entries, pyEqUser (db.heap r') (db.heap r) = true → r' = r := by
    intro r' hr' he
    by_contra hner
    exact List.Pairwise.forall (fun _ _ hab => hab.symm) hpair hr' hr hner (pyEqUser_srno he)
  have hrm := removeFirst_erase db.heap hr huniq
  have hkey := hb2 r hr
  simp only [delete_user, hf, hrm, hkey]

theorem Coh_delete (db : UserDatabase) (key value : String) (hC : Coh db) :
    Coh (delete_user db key value).1 := by
  cases hf : find_user db key value with
  | none => simpa [delete_user, hf] using hC
  | some r =>
      rw [delete_user_found db key value hC hf]
      obtain ⟨hnd, hbound, hpair, hint, hb2, hb3, hkeys⟩ := hC
      have hr : r ∈ db.entries := find_user_mem hb3 hf
      have hsub := eraseRef_sublist db.entries r
      refine ⟨List.Nodup.sublist hsub hnd,
        fun r' hr' => hbound r' (hsub.subset hr'),
        List.Pairwise.sublist hsub hpair,
        fun r' hr' => hint r' (hsub.subset hr'), ?_, ?_,
        keysNodup_dictDel _ hkeys⟩
      · intro r' hr'
        have hmem : r' ∈ db.entries := hsub.subset hr'
        have hne : r' ≠ r := fun h => (not_mem_eraseRef hnd r) (h ▸ hr')
        have hsrno_ne : (db.heap r').srno ≠ (db.heap r).srno :=
          List.Pairwise.forall (fun _ _ hab => hab.symm) hpair hmem hr hne
        show dictGet (dictDel db.srno_index ((db.heap r).srno)) ((db.heap r').srno) = some r'
        rw [dictGet_dictDel _ hkeys, if_neg (fun h => hsrno_ne h.symm)]
        exact hb2 r' hmem
      · intro p hp
        have hp' : p ∈ db.srno_index := (dictDel_sublist _ _).subset hp
        obtain ⟨hmem, hsr⟩ := hb3 p hp'
        have hne : p.2 ≠ r := by
          intro h
          have hkeymem : p.1 ∈ (dictDel db.srno_index ((db.heap r).srno)).map Prod.fst :=
            List.mem_map_of_mem Prod.fst hp
          have := mem_keys_dictGet_isSome hkeymem
          rw [← hsr, h, dictGet_dictDel _ hkeys, if_pos rfl] at this
          cases this
        exact ⟨mem_eraseRef_of_ne hmem hne, hsr⟩

theorem Coh_update (db : UserDatabase) (key value : String)
    (nd : List (String × String)) (hnd : ∀ p ∈ nd, p.1 ≠ "srno") (hC : Coh db) :
    Coh (update_user db key value nd).1 := by
  obtain ⟨h1, h2, h3, h4⟩ := update_user_frame db key value nd hnd
  obtain ⟨hnd', hbound, hpair, hint, hb2, hb3, hkeys⟩ := hC
  refine ⟨?_, ?_, ?_, ?_, ?_, ?_, ?_⟩
  · rw [h1]; exact hnd'
  · intro r hr
    rw [h1] at hr
    rw [h3]
    exact hbound r hr
  · rw [h1]
    exact hpair.imp_of_mem (fun ha hb hab => by rw [h4, h4]; exact hab)
  · intro r hr
    rw [h1] at hr
    rw [h4 r]
    exact hint r hr
  · intro r hr
    rw [h1] at hr
    rw [h2, h4 r]
    exact hb2 r hr
  · intro p hp
    rw [h2] at hp
    obtain ⟨hm, hs⟩ := hb3 p hp
    exact ⟨h1 ▸ hm, (h4 p.2).trans hs⟩
  · rw [h2]
    exact hkeys

theorem liveSrnos_update (db : UserDatabase) (key value : String)
    (nd : List (String × String)) (hnd : ∀ p ∈ nd, p.1 ≠ "srno") :
    liveSrnos (update_user db key value nd).1 = liveSrnos db := by
  obtain ⟨h1, _, _, h4⟩ := update_user_frame db key value nd hnd
  unfold liveSrnos
  rw [h1]
  exact List.map_congr_left (fun r _ => h4 r)

theorem Strong_update (db : UserDatabase) (key value : String)
    (nd : List (String × String)) (hnd : ∀ p ∈ nd, p.1 ≠ "srno") (hS : Strong db) :
    Strong (update_user db key value nd).1 := by
  obtain ⟨hC, hcanon⟩ := hS
  obtain ⟨h1, _, _, _⟩ := update_user_frame db key value nd hnd
  exact ⟨Coh_update db key value nd hnd hC,
    (liveSrnos_update db key value nd hnd).trans (by rw [hcanon, h1])⟩

theorem canonSrnos_succ (n : Nat) :
    canonSrnos (n + 1) = canonSrnos n ++ [PyVal.vInt ((n : Int) + 1)] := by
  unfold canonSrnos
  rw [List.range_succ, List.map_append]
  rfl

theorem not_mem_canonSrnos (n : Nat) : PyVal.vInt ((n : Int) + 1) ∉ canonSrnos n := by
  unfold canonSrnos
  intro h
  obtain ⟨i, hi, heq⟩ := List.mem_map.mp h
  have hi' : i < n := List.mem_range.mp hi
  have : (i : Int) + 1 = (n : Int) + 1 := by
    have := PyVal.vInt.inj heq
    exact this
  have : (i : Int) = (n : Int) := by omega
  have : i = n := Nat.cast_inj.mp this
  omega

theorem Strong_add_aux (db : UserDatabase) (u : User)
    (hu : u.srno = .vInt (getNextSrno db)) (hS : Strong db) :
    Strong
      { heap := heapSet db.heap db.nextRef u,
        nextRef := db.nextRef + 1,
        entries := db.entries ++ [db.nextRef],
        srno_index := dictSet db.srno_index (.vInt (getNextSrno db)) db.nextRef } := by
  obtain ⟨⟨hnd, hbound, hpair, hint, hb2, hb3, hkeys⟩, hcanon⟩ := hS
  have hnf : db.nextRef ∉ db.entries := fun h => lt_irrefl _ (hbound _ h)
  have hheap_old : ∀ r ∈ db.entries, heapSet db.heap db.nextRef u r = db.heap r :=
    fun r hr => heapSet_ne _ _ _ (fun h => hnf (h ▸ hr))
  have hfresh : ∀ r ∈ db.entries, (db.heap r).srno ≠ .vInt (getNextSrno db) := by
    intro r hr h
    have hmem : (db.heap r).srno ∈ liveSrnos db :=
      List.mem_map_of_mem (fun r' => (db.heap r').srno) hr
    rw [hcanon, h] at hmem
    exact not_mem_canonSrnos db.entries.length hmem
  constructor
  · refine ⟨?_, ?_, ?_, ?_, ?_, ?_, ?_⟩
    · exact List.nodup_append.mpr ⟨hnd, List.nodup_singleton _,
        fun a ha hb => hnf ((List.mem_singleton.mp hb) ▸ ha)⟩
    · intro r hr
      rcases List.mem_append.mp hr with h | h
      · exact Nat.lt_succ_of_lt (hbound r h)
      · rw [List.mem_singleton.mp h]
        exact Nat.lt_succ_self _
    · rw [List.pairwise_append]
      refine ⟨hpair.imp_of_mem (fun {a} {b} ha hb hab => ?_),
        List.pairwise_singleton _ _, ?_⟩
      · show (heapSet db.heap db.nextRef u a).srno ≠ (heapSet db.heap db.nextRef u b).srno
        rw [hheap_old _ ha, hheap_old _ hb]
        exact hab
      · intro a ha b hb
        rw [List.mem_singleton.mp hb]
        show (heapSet db.heap db.nextRef u a).srno ≠
          (heapSet db.heap db.nextRef u db.nextRef).srno
        rw [hheap_old _ ha, heapSet_self, hu]
        exact hfresh a ha
    · intro r hr
      rcases List.mem_append.mp hr with h | h
      · show ((heapSet db.heap db.nextRef u r).srno).isInt = true
        rw [hheap_old _ h]
        exact hint r h
      · rw [List.mem_singleton.mp h]
        show ((heapSet db.heap db.nextRef u db.nextRef).srno).isInt = true
        rw [heapSet_self, hu]
        rfl
    · intro r hr
      rcases List.mem_append.mp hr with h | h
      · show dictGet (dictSet db.srno_index (.vInt (getNextSrno db)) db.nextRef)
          ((heapSet db.heap db.nextRef u r).srno) = some r
        rw [hheap_old _ h, dictGet_dictSet,
          if_neg (fun hh => hfresh r h hh.symm)]
        exact hb2 r h
      · rw [List.mem_singleton.mp h]
        show dictGet (dictSet db.srno_index (.vInt (getNextSrno db)) db.nextRef)
          ((heapSet db.heap db.nextRef u db.nextRef).srno) = some db.nextRef
        rw [heapSet_self, hu, dictGet_dictSet, if_pos rfl]
    · intro p hp
      rcases mem_dictSet hp with h | h
      · rw [h]
        refine ⟨List.mem_append.mpr (Or.inr (List.mem_singleton_self _)), ?_⟩
        show (heapSet db.heap db.nextRef u db.nextRef).srno = _
        rw [heapSet_self, hu]
      · obtain ⟨hm, hs⟩ := hb3 p h
        refine ⟨List.mem_append.mpr (Or.inl hm), ?_⟩
        show (heapSet db.heap db.nextRef u p.2).srno = p.1
        rw [hheap_old _ hm]
        exact hs
    · exact keysNodup_dictSet _ _ hkeys
  · show liveSrnos _ = canonSrnos (db.entries ++ [db.nextRef]).length
    unfold liveSrnos
    show List.map (fun r => (heapSet db.heap db.nextRef u r).srno)
      (db.entries ++ [db.nextRef]) = _
    rw [List.map_append, List.map_congr_left (fun r hr => by rw [hheap_old _ hr]),
      List.length_append]
    show liveSrnos db ++ [(heapSet db.heap db.nextRef u db.nextRef).srno] = _
    rw [heapSet_self, hu, hcanon]
    show canonSrnos db.entries.length ++ [PyVal.vInt (getNextSrno db)] =
      canonSrnos (db.entries.length + 1)
    rw [canonSrnos_succ]
    unfold getNextSrno
    rfl

theorem Strong_add (db : UserDatabase) (name age gender occupation : String)
    (hS : Strong db) : Strong (add_user db name age gender occupation).db := by
  cases hv : pythonInt age with
  | none => simpa [add_user, hv] using hS
  | some n =>
      have heq : (add_user db name age gender occupation).db =
          { heap := heapSet db.heap db.nextRef
              ⟨.vInt (getNextSrno db), .vStr name, .vInt n, .vStr gender,
                .vStr occupation, []⟩,
            nextRef := db.nextRef + 1,
            entries := db.entries ++ [db.nextRef],
            srno_index := dictSet db.srno_index (.vInt (getNextSrno db)) db.nextRef } := by
        simp only [add_user, hv]
      rw [heq]
      exact Strong_add_aux db _ rfl hS

theorem Strong_empty : Strong emptyDB := by
  refine ⟨⟨?_, ?_, ?_, ?_, ?_, ?_, ?_⟩, ?_⟩ <;>
    simp [emptyDB, liveSrnos, canonSrnos]

theorem runOpsFrom_nil (db : UserDatabase) : runOpsFrom db [] = db := rfl

theorem runOpsFrom_cons (db : UserDatabase) (op : Op) (ops : List Op) :
    runOpsFrom db (op :: ops) = runOpsFrom (runOp db op) ops := rfl

theorem opUpdOk_updU {key value : String} {nd : List (String × String)}
    (h : opUpdOk (.updU key value nd) = true) : ∀ p ∈ nd, p.1 ≠ "srno" := by
  simp only [opUpdOk, List.all_eq_true] at h
  intro p hp
  simpa using h p hp

theorem Strong_runOp (db : UserDatabase) (op : Op) (hdel : opIsDel op = false)
    (hupd : opUpdOk op = true) (hS : Strong db) : Strong (runOp db op) := by
  cases op with
  | addU n a g o => exact Strong_add db n a g o hS
  | updU k v nd => exact Strong_update db k v nd (opUpdOk_updU hupd) hS
  | delU k v => simp [opIsDel] at hdel

theorem Coh_runOp_noAdd (db : UserDatabase) (op : Op) (hadd : opIsAdd op = false)
    (hupd : opUpdOk op = true) (hC : Coh db) : Coh (runOp db op) := by
  cases op with
  | addU n a g o => simp [opIsAdd] at hadd
  | updU k v nd => exact Coh_update db k v nd (opUpdOk_updU hupd) hC
  | delU k v => exact Coh_delete db k v hC

theorem Strong_runOpsFrom (ops : List Op) :
    ∀ db : UserDatabase, ops.all (fun o => !(opIsDel o)) = true →
    opsUpdOk ops = true → Strong db → Strong (runOpsFrom db ops) := by
  induction ops with
  | nil => intro db _ _ hS; exact hS
  | cons op rest ih =>
      intro db h1 h2 hS
      rw [runOpsFrom_cons]
      simp only [List.all_cons, Bool.and_eq_true] at h1
      simp only [opsUpdOk, List.all_cons, Bool.and_eq_true] at h2
      exact ih (runOp db op) h1.2 h2.2
        (Strong_runOp db op (by simpa using h1.1) h2.1 hS)

theorem Coh_runOpsFrom_phased (ops : List Op) :
    ∀ db : UserDatabase, opsUpdOk ops = true →
    ((Strong db ∧ noAddAfterDel ops = true) ∨
      (Coh db ∧ ops.all (fun o => !(opIsAdd o)) = true)) →
    Coh (runOpsFrom db ops) := by
  induction ops with
  | nil =>
      intro db _ h
      rcases h with ⟨hS, _⟩ | ⟨hC, _⟩
      · exact hS.1
      · exact hC
  | cons op rest ih =>
      intro db h2 h
      simp only [opsUpdOk, List.all_cons, Bool.and_eq_true] at h2
      rw [runOpsFrom_cons]
      cases op with
      | addU n a g o =>
          rcases h with ⟨hS, hph⟩ | ⟨hC, hall⟩
          · have hph' : noAddAfterDel rest = true := hph
            exact ih _ h2.2 (Or.inl ⟨Strong_add db n a g o hS, hph'⟩)
          · simp [opIsAdd] at hall
      | updU k v nd =>
          rcases h with ⟨hS, hph⟩ | ⟨hC, hall⟩
          · have hph' : noAddAfterDel rest = true := hph
            exact ih _ h2.2
              (Or.inl ⟨Strong_update db k v nd (opUpdOk_updU h2.1) hS, hph'⟩)
          · simp only [List.all_cons, Bool.and_eq_true] at hall
            exact ih _ h2.2
              (Or.inr ⟨Coh_update db k v nd (opUpdOk_updU h2.1) hC, hall.2⟩)
      | delU k v =>
          have hC : Coh db := by
            rcases h with ⟨hS, _⟩ | ⟨hC, _⟩
            · exact hS.1
            · exact hC
          have hall : rest.all (fun o => !(opIsAdd o)) = true := by
            rcases h with ⟨_, hph⟩ | ⟨_, hall⟩
            · exact hph
            · simp only [List.all_cons, Bool.and_eq_true] at hall
              exact hall.2
          exact ih _ h2.2 (Or.inr ⟨Coh_delete db k v hC, hall⟩)

theorem delete_user_state (db : UserDatabase) (key value : String) :
    (delete_user db key value).1.heap = db.heap ∧
    (delete_user db key value).1.nextRef = db.nextRef ∧
    ((delete_user db key value).1.srno_index = db.srno_index ∨
      ∃ k', (delete_user db key value).1.srno_index = dictDel db.srno_index k') := by
  cases hf : find_user db key value with
  | none =>
      rw [show delete_user db key value = (db, .ok false) from by
        simp [delete_user, hf]]
      exact ⟨rfl, rfl, Or.inl rfl⟩
  | some r =>
      cases hrm : removeFirst db.heap db.entries (db.heap r) with
      | none =>
          rw [show delete_user db key value = (db, .valueError) from by
            simp [delete_user, hf, hrm]]
          exact ⟨rfl, rfl, Or.inl rfl⟩
      | some entries' =>
          cases hg : dictGet db.srno_index (db.heap r).srno with
          | none =>
              rw [show delete_user db key value =
                  ({ db with entries := entries' }, .keyError) from by
                simp [delete_user, hf, hrm, hg]]
              exact ⟨rfl, rfl, Or.inl rfl⟩
          | some x =>
              rw [show delete_user db key value =
                  ({ db with
                      entries := entries',
                      srno_index := dictDel db.srno_index ((db.heap r).srno) },
                    .ok true) from by
                simp [delete_user, hf, hrm, hg]]
              exact ⟨rfl, rfl, Or.inr ⟨(db.heap r).srno, rfl⟩⟩

theorem Inv10_runOp (db : UserDatabase) (op : Op) (hupd : opUpdOk op = true)
    (h : ∀ p ∈ db.srno_index, p.2 < db.nextRef ∧ (db.heap p.2).srno = p.1) :
    ∀ p ∈ (runOp db op).srno_index,
      p.2 < (runOp db op).nextRef ∧ ((runOp db op).heap p.2).srno = p.1 := by
  cases op with
  | addU nm a g o =>
      cases hv : pythonInt a with
      | none =>
          have heq : runOp db (.addU nm a g o) = db := by
            simp [runOp, add_user, hv]
          rw [heq]
          exact h
      | some n =>
          have heq : runOp db (.addU nm a g o) =
              { heap := heapSet db.heap db.nextRef
                  ⟨.vInt (getNextSrno db), .vStr nm, .vInt n, .vStr g, .vStr o, []⟩,
                nextRef := db.nextRef + 1,
                entries := db.entries ++ [db.nextRef],
                srno_index := dictSet db.srno_index (.vInt (getNextSrno db))
                  db.nextRef } := by
            simp only [runOp, add_user, hv]
          rw [heq]
          intro p hp
          rcases mem_dictSet hp with hpe | hpm
          · rw [hpe]
            refine ⟨Nat.lt_succ_self _, ?_⟩
            show (heapSet db.heap db.nextRef _ db.nextRef).srno = _
            rw [heapSet_self]
          · obtain ⟨hlt, hs⟩ := h p hpm
            refine ⟨Nat.lt_succ_of_lt hlt, ?_⟩
            show (heapSet db.heap db.nextRef _ p.2).srno = p.1
            rw [heapSet_ne _ _ _ (Nat.ne_of_lt hlt)]
            exact hs
  | updU k v nd =>
      obtain ⟨_, h2, h3, h4⟩ := update_user_frame db k v nd (opUpdOk_updU hupd)
      intro p hp
      have hp' : p ∈ (update_user db k v nd).1.srno_index := hp
      rw [h2] at hp'
      obtain ⟨hlt, hs⟩ := h p hp'
      show p.2 < (update_user db k v nd).1.nextRef ∧
        ((update_user db k v nd).1.heap p.2).srno = p.1
      rw [h3]
      exact ⟨hlt, (h4 p.2).trans hs⟩
  | delU k v =>
      obtain ⟨hh, hn, hidx⟩ := delete_user_state db k v
      intro p hp
      have hp' : p ∈ (delete_user db k v).1.srno_index := hp
      have hmem : p ∈ db.srno_index := by
        rcases hidx with he | ⟨k', he⟩
        · rwa [he] at hp'
        · rw [he] at hp'
          exact (dictDel_sublist _ _).subset hp'
      obtain ⟨hlt, hs⟩ := h p hmem
      show p.2 < (delete_user db k v).1.nextRef ∧
        ((delete_user db k v).1.heap p.2).srno = p.1
      rw [hh, hn]
      exact ⟨hlt, hs⟩

theorem Inv10_runOpsFrom (ops : List Op) :
    ∀ db : UserDatabase, opsUpdOk ops = true →
    (∀ p ∈ db.srno_index, p.2 < db.nextRef ∧ (db.heap p.2).srno = p.1) →
    ∀ p ∈ (runOpsFrom db ops).srno_index,
      p.2 < (runOpsFrom db ops).nextRef ∧
      ((runOpsFrom db ops).heap p.2).srno = p.1 := by
  induction ops with
  | nil => intro db _ h; exact h
  | cons op rest ih =>
      intro db h2 h
      simp only [opsUpdOk, List.all_cons, Bool.and_eq_true] at h2
      rw [runOpsFrom_cons]
      exact ih _ h2.2 (Inv10_runOp db op h2.1 h)

/-! ### Claim theorems -/

/-- Claim C1: the spec demands that an update whose new age value is
malformed changes no field of the target record.  The code validates
the age inside the assignment loop, after earlier entries were already
assigned: on a store holding `User(1, 'Alice', 30, 'F', 'Engineer')`,
`update_user('srno', '1', {'name': 'Bob', 'age': 'abc'})` returns
`False` yet leaves the record's name changed to `'Bob'` — a partial
mutation is retained, contradicting the spec's all-or-nothing rule. -/
theorem claim_C1 :
    (update_user sAlice "srno" "1" [("name", "Bob"), ("age", "abc")]).2 = false ∧
    ((update_user sAlice "srno" "1" [("name", "Bob"), ("age", "abc")]).1.heap 0).name
      = .vStr "Bob" ∧
    (sAlice.heap 0).name = .vStr "Alice" := by
  decide

/-- Claim C4 counterexample: `add_user` never returns the created
record — the Python function returns `None` on every path, so even a
successful create yields no record to the caller. -/
theorem claim_C4_counterexample :
    ¬ ∃ u : User, (add_user emptyDB "Alice" "30" "F" "Engineer").ret = some u := by
  rintro ⟨u, h⟩
  exact Option.noConfusion h

/-- Claim C4 (amended): for every store state, when the age input
parses, create assigns identifier `len(entries) + 1`, appends the new
record to the enumeration sequence, inserts it into the lookup index
under that identifier, leaves every other heap object alone — and
returns `None`, not the created record. -/
theorem claim_C4_amended (db : UserDatabase) (name age gender occupation : String)
    (n : Int) (h : pythonInt age = some n) :
    (add_user db name age gender occupation).db.entries = db.entries ++ [db.nextRef] ∧
    (add_user db name age gender occupation).db.heap db.nextRef =
      ⟨.vInt ((db.entries.length : Int) + 1), .vStr name, .vInt n, .vStr gender,
        .vStr occupation, []⟩ ∧
    (add_user db name age gender occupation).db.srno_index =
      dictSet db.srno_index (.vInt ((db.entries.length : Int) + 1)) db.nextRef ∧
    (add_user db name age gender occupation).db.nextRef = db.nextRef + 1 ∧
    (∀ r, r ≠ db.nextRef →
      (add_user db name age gender occupation).db.heap r = db.heap r) ∧
    (add_user db name age gender occupation).ret = none := by
  refine ⟨?_, ?_, ?_, ?_, ?_, ?_⟩
  · simp [add_user, h]
  · simp [add_user, h, heapSet, getNextSrno]
  · simp [add_user, h, getNextSrno]
  · simp [add_user, h]
  · intro r hr
    simp [add_user, h, heapSet, hr]
  · simp [add_user, h]

/-- Claim C4 witness: the amended claim evaluated on a create against
the empty store. -/
theorem claim_C4_witness :
    pythonInt "30" = some 30 ∧
    ((add_user emptyDB "Alice" "30" "F" "Engineer").db.entries =
        emptyDB.entries ++ [emptyDB.nextRef] ∧
      (add_user emptyDB "Alice" "30" "F" "Engineer").db.heap emptyDB.nextRef =
        ⟨.vInt ((emptyDB.entries.length : Int) + 1), .vStr "Alice", .vInt 30,
          .vStr "F", .vStr "Engineer", []⟩ ∧
      (add_user emptyDB "Alice" "30" "F" "Engineer").db.srno_index =
        dictSet emptyDB.srno_index (.vInt ((emptyDB.entries.length : Int) + 1))
          emptyDB.nextRef ∧
      (add_user emptyDB "Alice" "30" "F" "Engineer").db.nextRef =
        emptyDB.nextRef + 1 ∧
      (∀ r, r ≠ emptyDB.nextRef →
        (add_user emptyDB "Alice" "30" "F" "Engineer").db.heap r = emptyDB.heap r) ∧
      (add_user emptyDB "Alice" "30" "F" "Engineer").ret = none) :=
  ⟨by decide, claim_C4_amended emptyDB "Alice" "30" "F" "Engineer" 30 (by decide)⟩

/-- Claim C5 counterexample: a rejected create is not signalled to the
caller by any boolean/sentinel return value distinguishable from
success — `add_user` returns `None` in both cases (the rejection is
only printed); the store is indeed left unchanged. -/
theorem claim_C5_counterexample :
    (add_user emptyDB "Ann" "abc" "F" "Doctor").ret =
      (add_user emptyDB "Ann" "30" "F" "Doctor").ret ∧
    (add_user emptyDB "Ann" "abc" "F" "Doctor").db = emptyDB :=
  ⟨rfl, rfl⟩

/-- Claim C5 (amended): a create whose age input does not parse is
rejected without an exception, creates no record, leaves the store
(entries, index, heap, counter) byte-for-byte unchanged, and reports
the rejection only through a printed error message; the function's
return value is `None`, the same as on success. -/
theorem claim_C5_amended (db : UserDatabase) (name age gender occupation : String)
    (h : pythonInt age = none) :
    (add_user db name age gender occupation).db = db ∧
    (add_user db name age gender occupation).ret = none ∧
    (add_user db name age gender occupation).msg =
      some "Error: Age must be a valid number. Entry aborted." := by
  refine ⟨?_, ?_, ?_⟩ <;> simp [add_user, h]

/-- Claim C5 witness: the amended claim evaluated on `age = 'abc'`
against the empty store. -/
theorem claim_C5_witness :
    pythonInt "abc" = none ∧
    ((add_user emptyDB "Ann" "abc" "F" "Doctor").db = emptyDB ∧
      (add_user emptyDB "Ann" "abc" "F" "Doctor").ret = none ∧
      (add_user emptyDB "Ann" "abc" "F" "Doctor").msg =
        some "Error: Age must be a valid number. Entry aborted.") :=
  ⟨by decide, claim_C5_amended emptyDB "Ann" "abc" "F" "Doctor" (by decide)⟩

/-- Claim C6: a find on the identifier field returns `None` (not an
error) when the value does not parse as an integer, and otherwise
returns exactly the dict lookup under that integer (which is `None`
when the key is absent). -/
theorem claim_C6 (db : UserDatabase) (value : String) :
    (pythonInt value = none → find_user db "srno" value = none) ∧
    (∀ n : Int, pythonInt value = some n →
      find_user db "srno" value = dictGet db.srno_index (.vInt n)) := by
  constructor
  · intro h
    rw [find_user_srno, h]
  · intro n h
    rw [find_user_srno, h]

/-- Claim C6 witness: malformed identifier `'abc'` yields `None`, and
the parsed identifier `'2'` yields the index lookup, on a two-record
store. -/
theorem claim_C6_witness :
    (pythonInt "abc" = none ∧ find_user sAliceBob "srno" "abc" = none) ∧
    (pythonInt "2" = some 2 ∧
      find_user sAliceBob "srno" "2" = dictGet sAliceBob.srno_index (.vInt 2)) :=
  ⟨⟨by decide, (claim_C6 sAliceBob "abc").1 (by decide)⟩,
    ⟨by decide, (claim_C6 sAliceBob "2").2 2 (by decide)⟩⟩

theorem matchesKV_eq_true {h : Nat → User} {key value : String} {r : Nat} :
    matchesKV h key value r = true ↔
      pyLower (getattrOr (h r) key).toStr = pyLower value := by
  simp [matchesKV]

theorem assocStr_eq_none {l : List (String × PyVal)} {key : String}
    (h : ∀ q ∈ l, q.1 ≠ key) : assocStr l key = none := by
  induction l with
  | nil => rfl
  | cons q rest ih =>
      obtain ⟨qk, qv⟩ := q
      show (if qk = key then some qv else assocStr rest key) = none
      rw [if_neg (h (qk, qv) (List.mem_cons_self _ _))]
      exact ih (fun p hp => h p (List.mem_cons_of_mem _ hp))

/-- Claim C7: a find on a non-identifier field returns the first record
in insertion order whose named attribute, rendered as lowercase text,
equals the lowercased search value; `None` exactly when no record
matches; and an attribute name that is none of the record's attributes
(declared or dynamically added) reads as the empty string for every
record. -/
theorem claim_C7 (db : UserDatabase) (key value : String) (hk : key ≠ "srno") :
    (∀ r, find_user db key value = some r →
      ∃ i, ∃ hi : i < db.entries.length,
        db.entries.get ⟨i, hi⟩ = r ∧
        pyLower (getattrOr (db.heap r) key).toStr = pyLower value ∧
        ∀ j, ∀ hj : j < i,
          pyLower (getattrOr (db.heap (db.entries.get ⟨j, lt_trans hj hi⟩)) key).toStr ≠
            pyLower value) ∧
    (find_user db key value = none ↔
      ∀ r ∈ db.entries, pyLower (getattrOr (db.heap r) key).toStr ≠ pyLower value) ∧
    (key ∉ (["srno", "name", "age", "gender", "occupation"] : List String) →
      ∀ u : User, (∀ q ∈ u.extra, q.1 ≠ key) → getattrOr u key = .vStr "") := by
  refine ⟨?_, ?_, ?_⟩
  · intro r hf
    rw [find_user_other db key value hk] at hf
    obtain ⟨i, hi, hget, hpa, hprior⟩ := find?_first _ _ _ hf
    refine ⟨i, hi, hget, matchesKV_eq_true.mp hpa, ?_⟩
    intro j hj hcontra
    have := hprior j hj
    rw [matchesKV_eq_true.mpr hcontra] at this
    cases this
  · rw [find_user_other db key value hk, List.find?_eq_none]
    constructor
    · intro hall r hr he
      exact hall r hr (matchesKV_eq_true.mpr he)
    · intro hall r hr hmt
      exact hall r hr (matchesKV_eq_true.mp hmt)
  · intro hku u hextra
    simp only [List.mem_cons, List.not_mem_nil, or_false, not_or] at hku
    obtain ⟨h1, h2, h3, h4, h5⟩ := hku
    unfold getattrOr
    rw [if_neg h1, if_neg h2, if_neg h3, if_neg h4, if_neg h5,
      assocStr_eq_none hextra]
    rfl

/-- Claim C7 witness: the claim instantiated on a two-record store and
the case-insensitive search `find('name', 'ALICE')` (which matches the
record created with name `'Alice'`). -/
theorem claim_C7_witness :
    (∀ r, find_user sAliceBob "name" "ALICE" = some r →
      ∃ i, ∃ hi : i < sAliceBob.entries.length,
        sAliceBob.entries.get ⟨i, hi⟩ = r ∧
        pyLower (getattrOr (sAliceBob.heap r) "name").toStr = pyLower "ALICE" ∧
        ∀ j, ∀ hj : j < i,
          pyLower (getattrOr (sAliceBob.heap (sAliceBob.entries.get
            ⟨j, lt_trans hj hi⟩)) "name").toStr ≠ pyLower "ALICE") ∧
    (find_user sAliceBob "name" "ALICE" = none ↔
      ∀ r ∈ sAliceBob.entries,
        pyLower (getattrOr (sAliceBob.heap r) "name").toStr ≠ pyLower "ALICE") ∧
    ("name" ∉ (["srno", "name", "age", "gender", "occupation"] : List String) →
      ∀ u : User, (∀ q ∈ u.extra, q.1 ≠ "name") → getattrOr u "name" = .vStr "") :=
  claim_C7 sAliceBob "name" "ALICE" (by decide)

example : find_user sAliceBob "name" "ALICE" = some 0 := by decide

example : find_user sAliceBob "name" "Zoe" = none := by decide

/-- Claim C8 counterexample: the identifier IS alterable through the
update path — `update_user('name', 'alice', {'srno': '99'})` succeeds
and overwrites the resolved record's srno attribute (with the string
`'99'`), because `setattr` is applied to every entry of
`newFieldValues`, identifier included. -/
theorem claim_C8_counterexample :
    find_user sAlice "name" "alice" = some 0 ∧
    (update_user sAlice "name" "alice" [("srno", "99")]).2 = true ∧
    (sAlice.heap 0).srno = .vInt 1 ∧
    ((update_user sAlice "name" "alice" [("srno", "99")]).1.heap 0).srno =
      .vStr "99" := by
  decide

/-- Claim C8 (amended): for every update call whose `newFieldValues`
does not contain the identifier field, the resolved record's identifier
is the same after the call as before it, every other record (heap
object) is entirely unchanged, and the entry list and lookup index are
untouched. -/
theorem claim_C8_amended (db : UserDatabase) (key value : String)
    (nd : List (String × String)) (hnd : ∀ p ∈ nd, p.1 ≠ "srno") (r : Nat)
    (hf : find_user db key value = some r) :
    ((update_user db key value nd).1.heap r).srno = (db.heap r).srno ∧
    (∀ r', r' ≠ r → (update_user db key value nd).1.heap r' = db.heap r') ∧
    (update_user db key value nd).1.entries = db.entries ∧
    (update_user db key value nd).1.srno_index = db.srno_index := by
  obtain ⟨h1, h2, h3, h4, h5⟩ := applyNewData_spec r nd hnd db
  have heq : update_user db key value nd = applyNewData db r nd := by
    simp [update_user, hf]
  rw [heq]
  exact ⟨h4 r, h5, h1, h2⟩

/-- Claim C8 witness: an age-only update on a one-record store keeps the
identifier and both views. -/
theorem claim_C8_witness :
    (∀ p ∈ ([("age", "31")] : List (String × String)), p.1 ≠ "srno") ∧
    find_user sAlice "name" "alice" = some 0 ∧
    (((update_user sAlice "name" "alice" [("age", "31")]).1.heap 0).srno =
        (sAlice.heap 0).srno ∧
      (∀ r', r' ≠ 0 →
        (update_user sAlice "name" "alice" [("age", "31")]).1.heap r' =
          sAlice.heap r') ∧
      (update_user sAlice "name" "alice" [("age", "31")]).1.entries =
        sAlice.entries ∧
      (update_user sAlice "name" "alice" [("age", "31")]).1.srno_index =
        sAlice.srno_index) :=
  ⟨by decide, by decide,
    claim_C8_amended sAlice "name" "alice" [("age", "31")] (by decide) 0 (by decide)⟩

/-- Claim C10: in every state reachable from the empty store by create,
update (with `newFieldValues` not containing the identifier field), and
delete operations, every key present in the lookup index maps to a
record whose own identifier attribute equals that key
(`srno_index[k].srno == k`). -/
theorem claim_C10 (ops : List Op) (h2 : opsUpdOk ops = true) :
    ∀ k r, dictGet (runOps ops).srno_index k = some r →
      ((runOps ops).heap r).srno = k := by
  intro k r hr
  have hbase : ∀ p ∈ emptyDB.srno_index,
      p.2 < emptyDB.nextRef ∧ (emptyDB.heap p.2).srno = p.1 := by
    intro p hp
    simp [emptyDB] at hp
  exact (Inv10_runOpsFrom ops emptyDB h2 hbase _ (dictGet_mem hr)).2

/-- Claim C10 witness: the invariant evaluated after a concrete
create/update/delete/create sequence that exercises identifier reuse. -/
theorem claim_C10_witness :
    opsUpdOk
      [.addU "Alice" "30" "F" "Engineer", .addU "Bob" "25" "M" "Doctor",
        .updU "name" "alice" [("age", "31")], .delU "srno" "1",
        .addU "Carol" "40" "F" "Teacher"] = true ∧
    (∀ k r,
      dictGet (runOps
        [.addU "Alice" "30" "F" "Engineer", .addU "Bob" "25" "M" "Doctor",
          .updU "name" "alice" [("age", "31")], .delU "srno" "1",
          .addU "Carol" "40" "F" "Teacher"]).srno_index k = some r →
      ((runOps
        [.addU "Alice" "30" "F" "Engineer", .addU "Bob" "25" "M" "Doctor",
          .updU "name" "alice" [("age", "31")], .delU "srno" "1",
          .addU "Carol" "40" "F" "Teacher"]).heap r).srno = k) :=
  ⟨by decide,
    claim_C10
      [.addU "Alice" "30" "F" "Engineer", .addU "Bob" "25" "M" "Doctor",
        .updU "name" "alice" [("age", "31")], .delU "srno" "1",
        .addU "Carol" "40" "F" "Teacher"] (by decide)⟩

/-- Claim C2 counterexample: identifier uniqueness fails for sequences
containing a delete — after create Alice, create Bob, delete record 1,
create Carol, the store holds two live records that both carry
identifier 2 (Carol's srno is derived from the shrunken live count). -/
theorem claim_C2_counterexample :
    ¬ ∀ ops : List Op,
        List.Pairwise
          (fun a b => ((runOps ops).heap a).srno ≠ ((runOps ops).heap b).srno)
          (runOps ops).entries := by
  intro hall
  exact absurd (hall exC2) (by decide)

/-- Claim C2 (amended): after every finite sequence of create and
update operations (updates never touching the identifier field) and no
deletes, no two live records share an identifier; once a delete occurs
a later create can reuse a live identifier (see the counterexample). -/
theorem claim_C2_amended (ops : List Op)
    (h1 : ops.all (fun o => !(opIsDel o)) = true) (h2 : opsUpdOk ops = true) :
    List.Pairwise
      (fun a b => ((runOps ops).heap a).srno ≠ ((runOps ops).heap b).srno)
      (runOps ops).entries :=
  (Strong_runOpsFrom ops emptyDB h1 h2 Strong_empty).1.2.2.1

/-- Claim C2 witness: pairwise-distinct identifiers after two creates
and an update. -/
theorem claim_C2_witness :
    List.Pairwise
      (fun a b =>
        ((runOps [.addU "Alice" "30" "F" "Engineer",
            .updU "name" "alice" [("age", "31")],
            .addU "Bob" "25" "M" "Doctor"]).heap a).srno ≠
        ((runOps [.addU "Alice" "30" "F" "Engineer",
            .updU "name" "alice" [("age", "31")],
            .addU "Bob" "25" "M" "Doctor"]).heap b).srno)
      (runOps [.addU "Alice" "30" "F" "Engineer",
        .updU "name" "alice" [("age", "31")],
        .addU "Bob" "25" "M" "Doctor"]).entries :=
  claim_C2_amended
    [.addU "Alice" "30" "F" "Engineer", .updU "name" "alice" [("age", "31")],
      .addU "Bob" "25" "M" "Doctor"] (by decide) (by decide)

/-- Claim C3 counterexample: after create Alice, create Bob, delete
record 1, create Carol (reusing identifier 2), delete Bob by name —
the `del` removes key 2, which pointed at Carol — the store holds live
record Carol with identifier 2 while the lookup index has no key 2:
the two views no longer reference the same set of live records. -/
theorem claim_C3_counterexample :
    ¬ ∀ ops : List Op,
        (∀ k : PyVal, (dictGet (runOps ops).srno_index k).isSome = true ↔
          k ∈ liveSrnos (runOps ops)) ∧
        (∀ k r, dictGet (runOps ops).srno_index k = some r →
          r ∈ (runOps ops).entries) := by
  intro hall
  exact absurd (((hall exBad).1 (.vInt 2)).mpr (by decide)) (by decide)

/-- Claim C3 (amended): for every operation sequence whose updates never
touch the identifier field and in which no create follows a delete, the
set of keys of the lookup index equals the set of identifiers of the
records in the enumeration sequence, and every key maps to a record in
the enumeration sequence. -/
theorem claim_C3_amended (ops : List Op) (h2 : opsUpdOk ops = true)
    (h3 : noAddAfterDel ops = true) :
    (∀ k : PyVal, (dictGet (runOps ops).srno_index k).isSome = true ↔
      k ∈ liveSrnos (runOps ops)) ∧
    (∀ k r, dictGet (runOps ops).srno_index k = some r →
      r ∈ (runOps ops).entries) := by
  obtain ⟨hnd, hbound, hpair, hint, hb2, hb3, hkeys⟩ :=
    Coh_runOpsFrom_phased ops emptyDB h2 (Or.inl ⟨Strong_empty, h3⟩)
  unfold runOps
  constructor
  · intro k
    constructor
    · intro hk
      obtain ⟨r, hr⟩ := Option.isSome_iff_exists.mp hk
      obtain ⟨hmem, hs⟩ := hb3 _ (dictGet_mem hr)
      have hs' : ((runOpsFrom emptyDB ops).heap r).srno = k := hs
      rw [← hs']
      exact List.mem_map_of_mem _ hmem
    · intro hk
      unfold liveSrnos at hk
      obtain ⟨r, hmem, hs⟩ := List.mem_map.mp hk
      have hs' : ((runOpsFrom emptyDB ops).heap r).srno = k := hs
      rw [← hs', hb2 r hmem]
      rfl
  · intro k r hr
    exact (hb3 _ (dictGet_mem hr)).1

/-- Claim C3 witness: index/sequence coherence after creates, an
update, and a trailing delete. -/
theorem claim_C3_witness :
    (∀ k : PyVal,
      (dictGet (runOps [.addU "Alice" "30" "F" "Engineer",
          .addU "Bob" "25" "M" "Doctor", .updU "name" "alice" [("age", "31")],
          .delU "srno" "1"]).srno_index k).isSome = true ↔
        k ∈ liveSrnos (runOps [.addU "Alice" "30" "F" "Engineer",
          .addU "Bob" "25" "M" "Doctor", .updU "name" "alice" [("age", "31")],
          .delU "srno" "1"])) ∧
    (∀ k r,
      dictGet (runOps [.addU "Alice" "30" "F" "Engineer",
          .addU "Bob" "25" "M" "Doctor", .updU "name" "alice" [("age", "31")],
          .delU "srno" "1"]).srno_index k = some r →
        r ∈ (runOps [.addU "Alice" "30" "F" "Engineer",
          .addU "Bob" "25" "M" "Doctor", .updU "name" "alice" [("age", "31")],
          .delU "srno" "1"]).entries) :=
  claim_C3_amended
    [.addU "Alice" "30" "F" "Engineer", .addU "Bob" "25" "M" "Doctor",
      .updU "name" "alice" [("age", "31")], .delU "srno" "1"]
    (by decide) (by decide)

/-- Claim C9 counterexample: in a reachable store state (created by
create, create, delete 1, create — identifier reuse — then delete Bob
by name, which strips Carol's index key), a delete whose find resolves
live record Carol raises `KeyError` at `del srno_index[user.srno]`
instead of completing the claimed removal protocol. -/
theorem claim_C9_counterexample :
    find_user (runOps exBad) "name" "Carol" = some 2 ∧
    (delete_user (runOps exBad) "name" "Carol").2 = DelRes.keyError := by
  decide

/-- Claim C9 (amended): in every store state satisfying the coherence
invariant `Coh`, a delete behaves as the claim states: if find resolves
nothing, it returns `False` and leaves the store unchanged; if find
resolves record `r` (whose identifier is the integer `n`), it removes
exactly that record from the enumeration sequence, removes key `n` from
the lookup index, returns `True`, and afterwards a find by that
identifier returns `None` and the record is absent from the
enumeration.  In incoherent (yet reachable) states the operation can
instead raise `KeyError` (see the counterexample). -/
theorem claim_C9_amended (db : UserDatabase) (key value : String) (hC : Coh db) :
    (find_user db key value = none → delete_user db key value = (db, .ok false)) ∧
    (∀ r n, find_user db key value = some r → (db.heap r).srno = .vInt n →
      (delete_user db key value).2 = .ok true ∧
      (delete_user db key value).1.entries = eraseRef db.entries r ∧
      (delete_user db key value).1.srno_index = dictDel db.srno_index (.vInt n) ∧
      r ∉ (delete_user db key value).1.entries ∧
      (∀ s : String, pythonInt s = some n →
        find_user (delete_user db key value).1 "srno" s = none)) := by
  constructor
  · intro hf
    simp [delete_user, hf]
  · intro r n hf hsr
    rw [delete_user_found db key value hC hf]
    obtain ⟨hnd, hbound, hpair, hint, hb2, hb3, hkeys⟩ := hC
    refine ⟨rfl, rfl, by rw [hsr], ?_, ?_⟩
    · show r ∉ eraseRef db.entries r
      exact not_mem_eraseRef hnd r
    · intro s hs
      rw [find_user_srno, hs]
      show dictGet (dictDel db.srno_index ((db.heap r).srno)) (.vInt n) = none
      rw [hsr, dictGet_dictDel _ hkeys, if_pos rfl]

/-- Claim C9 witness: deleting record 1 by identifier from a coherent
two-record store removes it from both views; a find on a missing name
leaves the store unchanged. -/
theorem claim_C9_witness :
    Coh sAliceBob ∧
    ((find_user sAliceBob "srno" "1" = none →
        delete_user sAliceBob "srno" "1" = (sAliceBob, .ok false)) ∧
      (∀ r n, find_user sAliceBob "srno" "1" = some r →
        (sAliceBob.heap r).srno = .vInt n →
        (delete_user sAliceBob "srno" "1").2 = .ok true ∧
        (delete_user sAliceBob "srno" "1").1.entries = eraseRef sAliceBob.entries r ∧
        (delete_user sAliceBob "srno" "1").1.srno_index =
          dictDel sAliceBob.srno_index (.vInt n) ∧
        r ∉ (delete_user sAliceBob "srno" "1").1.entries ∧
        (∀ s : String, pythonInt s = some n →
          find_user (delete_user sAliceBob "srno" "1").1 "srno" s = none))) :=
  ⟨by unfold Coh; decide, claim_C9_amended sAliceBob "srno" "1" (by unfold Coh; decide)⟩
